/-
Verification of the yarapi requestor engine against its design document.

Each Rust component relevant to the checked properties is shallowly embedded:
pure logic becomes Lean functions, the single-consumer background loops become
folds over the FIFO queue they consume, and fallible steps return `Except`.
Sources embedded here:
  * `src/rest/async_drop.rs`   — deferred-cleanup queue (`DropList`, `drop_task`)
  * `src/rest.rs`              — `Session::with` cancellation wrapper
  * `src/rest/activity.rs`     — `generate_events` batch-result pipeline
  * `src/rest/market.rs`       — proposal dispatch, `negotiate_agreements`,
                                 `Proposal::create_agreement` drop behaviour
  * `src/requestor/payment_manager.rs` — invoice accept/reject policy
  * `src/rest/streaming/capture_messages.rs` and `messaging.rs` — framing codec
  * `src/lib.rs`               — proposal-selection threshold loop
-/
import Mathlib

namespace Yarapi

/-! ### Resource Ledger (`src/rest/async_drop.rs`)

`DropList` feeds a FIFO `mpsc::unbounded` channel consumed by one background
worker (`drop_task`).  Queue entries are either a cleanup action or a `Sync`
acknowledgement request (sent by `flush`).  The worker awaits each action to
completion before reading the next queue entry, so its behaviour is the fold
below; `α` stands for the payload identifying an enqueued cleanup future. -/

/-- A queue entry of the drop channel: `Command` in `async_drop.rs`. -/
inductive DCommand (α : Type) where
  | action (a : α)
  | sync (i : Nat)
  deriving DecidableEq

/-- Observable steps of the worker loop: an action starts executing, an action
finishes executing, or a `Sync` acknowledgement is sent. -/
inductive DEvent (α : Type) where
  | start (a : α)
  | finish (a : α)
  | ack (i : Nat)
  deriving DecidableEq

/-- The worker loop of `drop_task`: for each queue entry in FIFO order, a
`DropAction` future is awaited to completion before the next entry is read,
and a `Sync` entry sends its acknowledgement. -/
def drop_task {α : Type} : List (DCommand α) → List (DEvent α)
  | [] => []
  | DCommand.action a :: rest => DEvent.start a :: DEvent.finish a :: drop_task rest
  | DCommand.sync i :: rest => DEvent.ack i :: drop_task rest

/-- The cleanup actions contained in a queue, in submission order. -/
def actionsOf {α : Type} : List (DCommand α) → List α
  | [] => []
  | DCommand.action a :: rest => a :: actionsOf rest
  | DCommand.sync _ :: rest => actionsOf rest

/-- The actions whose execution starts in a trace, in order. -/
def startsOf {α : Type} : List (DEvent α) → List α
  | [] => []
  | DEvent.start a :: rest => a :: startsOf rest
  | DEvent.finish _ :: rest => startsOf rest
  | DEvent.ack _ :: rest => startsOf rest

/-- Checks that a trace is strictly sequential: an action may start only when
no action is running, a finish must match the running action, and
acknowledgements are sent only between actions. -/
def seqCheck {α : Type} [DecidableEq α] : List (DEvent α) → Option α → Bool
  | [], none => true
  | [], some _ => false
  | DEvent.start a :: rest, none => seqCheck rest (some a)
  | DEvent.start _ :: _, some _ => false
  | DEvent.finish a :: rest, some b => if a = b then seqCheck rest none else false
  | DEvent.finish _ :: _, none => false
  | DEvent.ack _ :: rest, none => seqCheck rest none
  | DEvent.ack _ :: _, some _ => false

/-- `Precedes tr e1 e2`: event `e1` occurs strictly before event `e2` in `tr`. -/
def Precedes {α : Type} (tr : List (DEvent α)) (e1 e2 : DEvent α) : Prop :=
  ∃ l1 l2 l3, tr = l1 ++ e1 :: (l2 ++ e2 :: l3)

/-! ### `Session::with` (`src/rest.rs`)

`Session::with(work)` races `work` against `tokio::signal::ctrl_c()` with
`future::select`; the `Left` (work finished first) arm yields `Some(output)`,
the `Right` (interrupt) arm yields `None`; in either case
`self.drop_list.flush()` is awaited before returning.  `flush` enqueues a
`Sync` entry and waits for its acknowledgement, so the events observed before
the call returns are the worker trace of the pending queue followed by the
`Sync`. -/

/-- Outcome of `future::select(work, ctrl_c)`. -/
inductive RaceOutcome (β : Type) where
  | completed (b : β)
  | interrupted

/-- `Session::with`: result of the race paired with the Resource Ledger trace
observed before the call returns (`pending` are the cleanup actions enqueued
before `flush` sends its `Sync`). -/
def session_with {α β : Type} (outcome : RaceOutcome β) (pending : List α) :
    Option β × List (DEvent α) :=
  ((match outcome with
    | RaceOutcome.completed b => some b
    | RaceOutcome.interrupted => none),
   drop_task (pending.map DCommand.action ++ [DCommand.sync 0]))

/-! ### Payment reconciliation (`src/requestor/payment_manager.rs`)

`update_invoices` processes each fetched invoice against the manager state:
`if this.valid_agreements.remove(&invoice.agreement_id)` it accepts the
invoice (adding its amount to `amount_paid`, acceptance carries the invoice
amount and the allocation id), otherwise it rejects it with
`RejectionReason::UnsolicitedService` and `total_amount_accepted: 0`.
`BigDecimal` amounts are embedded as rationals. -/

/-- The fields of `model::payment::Invoice` used by the manager. -/
structure Invoice where
  invoice_id : String
  agreement_id : String
  amount : ℚ
  deriving DecidableEq

/-- `model::payment::RejectionReason` (only the variant the code uses). -/
inductive RejectionReason where
  | unsolicitedService
  deriving DecidableEq

/-- The remote call spawned for one processed invoice. -/
inductive InvoiceAction where
  | accept (invoice_id : String) (total_amount_accepted : ℚ) (allocation_id : String)
  | reject (invoice_id : String) (reason : RejectionReason) (total_amount_accepted : ℚ)
  deriving DecidableEq

/-- Mutable state of `PaymentManager` touched by invoice processing. -/
structure PMState where
  allocation_id : String
  amount_paid : ℚ
  valid_agreements : Finset String

/-- One iteration of the invoice loop body of `update_invoices` for a single
received invoice. -/
def process_invoice (st : PMState) (invoice : Invoice) : PMState × InvoiceAction :=
  if invoice.agreement_id ∈ st.valid_agreements then
    ({ st with
        valid_agreements := st.valid_agreements.erase invoice.agreement_id,
        amount_paid := st.amount_paid + invoice.amount },
     InvoiceAction.accept invoice.invoice_id invoice.amount st.allocation_id)
  else
    (st, InvoiceAction.reject invoice.invoice_id RejectionReason.unsolicitedService 0)

/-! ### Market negotiation (`src/rest/market.rs`)

`Subscription::negotiated_proposals` reads proposals from `collect_proposals`
and, per proposal, either forwards it (`is_response`, i.e. it carries a
`prev_proposal_id`) or answers it once with
`counter_proposal(&demand.properties, &demand.constraints)`.  Properties are
embedded as an opaque type `J` (JSON values). -/

/-- The fields of a market `Proposal` the dispatch logic reads. -/
structure ProposalData (J : Type) where
  proposal_id : String
  prev_proposal_id : Option String
  properties : J

/-- `Proposal::is_response`: `self.data.prev_proposal_id.is_some()`. -/
def is_response {J : Type} (p : ProposalData J) : Bool :=
  p.prev_proposal_id.isSome

/-- The demand (`NewDemand`) whose properties and constraints are re-asserted
by every auto-counter. -/
structure NewDemand (J : Type) where
  properties : J
  constraints : String

/-- Visible effect of `negotiated_proposals` on one incoming proposal. -/
inductive NegotiationOutput (J : Type) where
  | forwarded (p : ProposalData J)
  | countered (proposal_id : String) (properties : J) (constraints : String)

/-- Body of the `negotiated_proposals` loop for one received proposal. -/
def negotiated_proposals_step {J : Type} (demand : NewDemand J) (p : ProposalData J) :
    NegotiationOutput J :=
  if is_response p then NegotiationOutput.forwarded p
  else NegotiationOutput.countered p.proposal_id demand.properties demand.constraints

/-- The `negotiated_proposals` pump over a sequence of received proposals. -/
def negotiated_proposals_run {J : Type} (demand : NewDemand J) (ps : List (ProposalData J)) :
    List (NegotiationOutput J) :=
  ps.map (negotiated_proposals_step demand)

/-- Projection: the counter-proposals issued by a run. -/
def countersOf {J : Type} : List (NegotiationOutput J) → List (String × J × String)
  | [] => []
  | NegotiationOutput.countered id props constraints :: rest =>
    (id, props, constraints) :: countersOf rest
  | NegotiationOutput.forwarded _ :: rest => countersOf rest

/-- Projection: the proposals forwarded as candidates by a run. -/
def forwardsOf {J : Type} : List (NegotiationOutput J) → List (ProposalData J)
  | [] => []
  | NegotiationOutput.forwarded p :: rest => p :: forwardsOf rest
  | NegotiationOutput.countered _ _ _ :: rest => forwardsOf rest

/-! `Subscription::negotiate_agreements` loops
`while agreements.len() < num_agreements`, each iteration doing
`proposals.recv().await`; on `Some(proposal)` it runs `negotiate_agreement`
(pushing the agreement on success, logging on failure), and on `None`
(channel closed) it does nothing and re-enters the loop.  The channel is
embedded as the finite list of values `recv` will still deliver — once it is
exhausted every further `recv` returns `None` immediately.  `fuel` bounds the
number of loop iterations so divergence is observable as `none` for every
fuel. -/

/-- Result of `negotiate_agreement` for one received proposal. -/
inductive NegotiationResult (A : Type) where
  | success (agreement : A)
  | failure
  deriving DecidableEq

/-- The `negotiate_agreements` loop. Returns `some agreements` if the loop
exits within `fuel` iterations, `none` otherwise. -/
def negotiate_agreements_loop {A : Type} (num_agreements : Nat) :
    List (NegotiationResult A) → List A → Nat → Option (List A)
  | _, agreements, 0 =>
    if agreements.length < num_agreements then none else some agreements
  | queue, agreements, fuel + 1 =>
    if agreements.length < num_agreements then
      match queue with
      | [] => negotiate_agreements_loop num_agreements [] agreements fuel
      | NegotiationResult.success a :: rest =>
        negotiate_agreements_loop num_agreements rest (agreements ++ [a]) fuel
      | NegotiationResult.failure :: rest =>
        negotiate_agreements_loop num_agreements rest agreements fuel
    else some agreements

/-- Number of successful negotiations a channel can still deliver. -/
def countSuccess {A : Type} : List (NegotiationResult A) → Nat
  | [] => 0
  | NegotiationResult.success _ :: rest => countSuccess rest + 1
  | NegotiationResult.failure :: rest => countSuccess rest

/-! `Proposal::create_agreement` builds the returned handle with
`Agreement::new(api, agreement_id, CancelableDropList::new())`, and
`CancelableDropList::new()` holds `None`.  `Drop for AgreementInner` calls
`self.drop_list.async_drop(terminate_agreement ...)`, and
`CancelableDropList::async_drop` registers the action only when it holds a
`DropList` (otherwise it logs "async_drop skipped").  The session ledger is
embedded as the list of registered cleanup actions. -/

/-- Cleanup actions registered with the Resource Ledger. -/
inductive CleanupAction where
  | terminateAgreement (agreement_id : String)
  | destroyActivity (activity_id : String)
  | unsubscribe (subscription_id : String)
  deriving DecidableEq

/-- `CancelableDropList`: an optional handle to the session ledger. -/
def CancelableDropList : Type := Option Unit

/-- `CancelableDropList::new()`: `Self(RefCell::new(None))`. -/
def CancelableDropList.new : CancelableDropList := none

/-- `CancelableDropList::async_drop`: registers only when a `DropList` is held. -/
def CancelableDropList.register (cdl : CancelableDropList) (ledger : List CleanupAction)
    (act : CleanupAction) : List CleanupAction :=
  match cdl with
  | some _ => ledger ++ [act]
  | none => ledger

/-- The fields of `AgreementInner` relevant to its `Drop` impl. -/
structure AgreementInner where
  agreement_id : String
  drop_list : CancelableDropList

/-- `Proposal::create_agreement`: wraps the server-assigned agreement id with
`CancelableDropList::new()`. -/
def create_agreement (agreement_id : String) : AgreementInner :=
  { agreement_id := agreement_id, drop_list := CancelableDropList.new }

/-- `Drop for AgreementInner`: attempts to register a terminate-agreement
cleanup action, returning the ledger state afterwards. -/
def AgreementInner.drop (inner : AgreementInner) (ledger : List CleanupAction) :
    List CleanupAction :=
  inner.drop_list.register ledger (CleanupAction.terminateAgreement inner.agreement_id)

/-! ### Batch execution pipeline (`src/rest/activity.rs`)

`generate_events` unfolds a stream from `(generator, commands, command_index,
finish)`.  Each step: if `finish`, end the stream without calling the
generator; otherwise await one poll `result = generator(command_index)`,
compute `last_index = result.iter().map(|r| (r.index + 1)).max().or(command_index)`
and `is_last = result.iter().any(|r| r.is_batch_finished)`, keep the results
with `Some(s.index) >= command_index` (Rust `Option` order: `None` below every
`Some`), map each kept result to an `Event` (or an error when its index is out
of range of the command vector), and continue with `(last_index, is_last)`.
The generator is embedded as the list of poll responses it returns in order;
the unfold result is the list of stream items paired with the number of polls
the generator actually served. -/

/-- `ya_client::model::activity::ExeScriptCommand` (external model type). -/
inductive ExeScriptCommand where
  | deploy
  | start (args : List String)
  | run (entry_point : String) (args : List String)
  | transfer (src : String) (dst : String)
  | terminate
  deriving DecidableEq

/-- `ya_client::model::activity::CommandResult`. -/
inductive CommandResult where
  | ok
  | error
  deriving DecidableEq

/-- The fields of `ExeScriptCommandResult` read by `generate_events`. -/
structure ExeScriptCommandResult where
  index : Nat
  result : CommandResult
  is_batch_finished : Bool
  message : Option String
  deriving DecidableEq

/-- `Event` from `src/rest/activity.rs`. -/
inductive BEvent where
  | stepSuccess (command : ExeScriptCommand) (output : String)
  | stepFailed (message : String)
  deriving DecidableEq

/-- Rust `Some(s.index as usize) >= command_index` on `Option<usize>`
(`None` compares below every `Some`). -/
def indexAtLeast (index : Nat) : Option Nat → Bool
  | none => true
  | some c => c ≤ index

/-- The low-water-mark after one poll:
`result.iter().map(|r| (r.index + 1)).max().or(command_index)`. -/
def nextCommandIndex (result : List ExeScriptCommandResult) (command_index : Option Nat) :
    Option Nat :=
  ((result.map fun r => r.index + 1).max?).or command_index

/-- The stream items produced from one poll: results passing the low-water-mark
filter, each mapped to an `Event` (`Err` when the index does not resolve
against the stored command vector). -/
def pollEvents (commands : List ExeScriptCommand) (command_index : Option Nat)
    (result : List ExeScriptCommandResult) : List (Except String BEvent) :=
  (result.filter fun s => indexAtLeast s.index command_index).map fun step =>
    match commands[step.index]? with
    | none => Except.error ("invalid command response with index: " ++ toString step.index)
    | some command =>
      match step.result with
      | CommandResult.ok => Except.ok (BEvent.stepSuccess command (step.message.getD ""))
      | CommandResult.error => Except.ok (BEvent.stepFailed (step.message.getD ""))

/-- The unfold loop of `generate_events` over the generator's poll responses.
Returns the stream items and the number of polls issued. -/
def generate_events_go (commands : List ExeScriptCommand) (command_index : Option Nat)
    (finish : Bool) (polls : List (List ExeScriptCommandResult)) :
    List (Except String BEvent) × Nat :=
  match finish with
  | true => ([], 0)
  | false =>
    match polls with
    | [] => ([], 0)
    | result :: rest =>
      let next := generate_events_go commands (nextCommandIndex result command_index)
        (result.any fun r => r.is_batch_finished) rest
      (pollEvents commands command_index result ++ next.1, next.2 + 1)

/-- `generate_events` from the initial unfold state `(None, false)`. -/
def generate_events (commands : List ExeScriptCommand)
    (polls : List (List ExeScriptCommandResult)) : List (Except String BEvent) × Nat :=
  generate_events_go commands none false polls

/-- The result indices that survive the low-water-mark filter, i.e. the index
sequence of the delivered stream items. -/
def delivered_indices_go (command_index : Option Nat) (finish : Bool)
    (polls : List (List ExeScriptCommandResult)) : List Nat :=
  match finish with
  | true => []
  | false =>
    match polls with
    | [] => []
    | result :: rest =>
      (result.filter fun s => indexAtLeast s.index command_index).map
          (fun s => s.index)
        ++ delivered_indices_go (nextCommandIndex result command_index)
          (result.any fun r => r.is_batch_finished) rest

/-- Delivered result indices of a whole poll sequence. -/
def delivered_indices (polls : List (List ExeScriptCommandResult)) : List Nat :=
  delivered_indices_go none false polls

/-- Strict ascent of a sequence of indices, as an executable check. -/
def strictlyIncreasing : List Nat → Bool
  | [] => true
  | [_] => true
  | a :: b :: rest => decide (a < b) && strictlyIncreasing (b :: rest)

/-- Conformant server behaviour for `get_exec_batch_results`: every poll
answers the requested lower bound (all returned indices are at least the
`command_index` the poll was issued with) and lists its results in strictly
increasing index order. -/
def serverConforms : Option Nat → List (List ExeScriptCommandResult) → Bool
  | _, [] => true
  | command_index, result :: rest =>
    (result.all fun s => indexAtLeast s.index command_index)
      && strictlyIncreasing (result.map fun s => s.index)
      && serverConforms (nextCommandIndex result command_index) rest

/-! ### Proposal selection loop (`src/lib.rs`, `Requestor::started`)

After each poll the loop checks
`(time_start.elapsed() > 5s && proposals.len() >= 13 * providers_num / 10 + 2)
 || (time_start.elapsed() > 30s && proposals.len() >= providers_num)`
(Rust integer division).  When the check passes it sets the state to
`AnswerBestProposals`, spawns one detached negotiation per proposal in
`&proposals[..providers_num]`, and clears the pool (`proposals = vec![]`).
Elapsed time is embedded as a rational number of seconds. -/

/-- `AgreementSearchState` in `Requestor::started`. -/
inductive AgreementSearchState where
  | waitForInitialProposals
  | answerBestProposals
  deriving DecidableEq

/-- The enough-proposals check, with Rust's truncating `usize` division. -/
def check_enough_proposals (elapsed : ℚ) (proposals_len providers_num : Nat) : Bool :=
  (decide (5 < elapsed) && decide (13 * providers_num / 10 + 2 ≤ proposals_len))
    || (decide (30 < elapsed) && decide (providers_num ≤ proposals_len))

/-- One selection check of the loop: when the check passes, the state becomes
`AnswerBestProposals`, the first `providers_num` pooled proposals are each
spawned into an independent negotiation, and the pool is cleared.  Returns
(new state, spawned negotiations, new pool). -/
def selection_step {P : Type} (providers_num : Nat) (elapsed : ℚ)
    (state : AgreementSearchState) (proposals : List P) :
    AgreementSearchState × List P × List P :=
  if check_enough_proposals elapsed proposals.length providers_num then
    (AgreementSearchState.answerBestProposals, proposals.take providers_num, [])
  else
    (state, [], proposals)

/-- The transition condition exactly as the specification words it:
candidate count at least `1.3 × target + 2` (exact rational arithmetic). -/
def spec_enough_proposals (elapsed : ℚ) (proposals_len providers_num : Nat) : Prop :=
  (5 < elapsed ∧ (13 / 10 : ℚ) * providers_num + 2 ≤ proposals_len)
    ∨ (30 < elapsed ∧ providers_num ≤ proposals_len)

/-! ### Message framing codec (`src/rest/streaming/capture_messages.rs`,
`src/rest/streaming/messaging.rs`)

`encode_message` serializes a message and wraps the bytes between the `0x02`
start marker and the `0x03` end marker.  `MessageProcessor::consume_message`
scans one output chunk: with a non-empty buffer (inside a frame) it looks for
the next `0x03`, completing and decoding the frame or buffering the whole
chunk; with an empty buffer (outside a frame) it copies bytes up to the next
`0x02` into the retained output, pushing a space (`0x20`) into the buffer on a
start marker.  Bytes are `Nat`, the message type and its serde codec are
parameters (`deser` receives the accumulated buffer). -/

/-- `Iterator::position`: index of the first byte satisfying `p`. -/
def position (p : Nat → Bool) : List Nat → Option Nat
  | [] => none
  | b :: rest => if p b then some 0 else (position p rest).map (· + 1)

/-- `encode_message`: serialized bytes wrapped between `0x02` and `0x03`. -/
def encode_message {μ : Type} (serialize : μ → List Nat) (msg : μ) : List Nat :=
  2 :: serialize msg ++ [3]

/-- The `while !output.is_empty()` loop of `consume_message`, carrying
`(buffer, leftovers)` and collecting decoded messages in order.  Returns the
final buffer, the retained output of this chunk, and the decoded messages. -/
def consume_go {μ : Type} (deser : List Nat → Option μ) :
    List Nat → List Nat → List Nat → List μ → List Nat × List Nat × List μ
  | buffer, [], leftovers, msgs => (buffer, leftovers, msgs)
  | buffer, b :: rest, leftovers, msgs =>
    let output := b :: rest
    if 0 < buffer.length then
      match position (· == 3) output with
      | some idx =>
        let buffer2 := buffer ++ output.take idx
        let msgs2 := match deser buffer2 with
          | some m => msgs ++ [m]
          | none => msgs
        consume_go deser [] (output.drop (idx + 1)) leftovers msgs2
      | none => consume_go deser (buffer ++ output) [] leftovers msgs
    else
      match position (· == 2) output with
      | some idx =>
        consume_go deser (buffer ++ [32]) (output.drop (idx + 1))
          (leftovers ++ output.take idx) msgs
      | none => consume_go deser buffer [] (leftovers ++ output) msgs
termination_by _ output _ _ => output.length
decreasing_by
  all_goals simp [List.length_drop]
  all_goals omega

/-- `MessageProcessor::consume_message` on one chunk: final buffer, retained
output (empty list standing for the `None` return), decoded messages. -/
def consume_message {μ : Type} (deser : List Nat → Option μ) (buffer : List Nat)
    (output : List Nat) : List Nat × List Nat × List μ :=
  consume_go deser buffer output [] []

/-- Byte-level transition of the codec state, equivalent to one scan step of
`consume_message`. -/
def procByte {μ : Type} (deser : List Nat → Option μ)
    (st : List Nat × List Nat × List μ) (b : Nat) : List Nat × List Nat × List μ :=
  let (buffer, leftovers, msgs) := st
  if 0 < buffer.length then
    if b == 3 then
      ([], leftovers,
       match deser buffer with
       | some m => msgs ++ [m]
       | none => msgs)
    else (buffer ++ [b], leftovers, msgs)
  else
    if b == 2 then (buffer ++ [32], leftovers, msgs)
    else (buffer, leftovers ++ [b], msgs)

/-- Folding the byte-level transition over a chunk. -/
def procBytes {μ : Type} (deser : List Nat → Option μ)
    (st : List Nat × List Nat × List μ) (output : List Nat) :
    List Nat × List Nat × List μ :=
  output.foldl (procByte deser) st

/-- Feeding a sequence of delivery chunks through `consume_message`, carrying
the buffer across chunks; retained outputs and decoded messages are
concatenated in delivery order. -/
def feedChunks {μ : Type} (deser : List Nat → Option μ) (buffer : List Nat) :
    List (List Nat) → List Nat × List Nat × List μ
  | [] => (buffer, [], [])
  | chunk :: rest =>
    let r1 := consume_message deser buffer chunk
    let r2 := feedChunks deser r1.1 rest
    (r2.1, r1.2.1 ++ r2.2.1, r1.2.2 ++ r2.2.2)

/-! ### Concrete instances used by evaluation witnesses -/

/-- A payment-manager state holding one authorized agreement id. -/
def pmStateW : PMState :=
  { allocation_id := "alloc-1", amount_paid := 0, valid_agreements := {"agr-1"} }

/-- An invoice for the authorized agreement. -/
def invoiceGoodW : Invoice :=
  { invoice_id := "inv-1", agreement_id := "agr-1", amount := 5 }

/-- An invoice for an agreement never authorized. -/
def invoiceBadW : Invoice :=
  { invoice_id := "inv-2", agreement_id := "agr-2", amount := 7 }

/-- A concrete deserializer for codec witnesses: accepts exactly the buffer a
frame with serialized payload `[53]` accumulates (space then payload). -/
def deserW : List Nat → Option Nat :=
  fun l => if l = [32, 53] then some 7 else none

/-! ## Theorems -/

/-! ### Helper lemmas on the Resource Ledger worker -/

theorem drop_task_append {α : Type} (q1 q2 : List (DCommand α)) :
    drop_task (q1 ++ q2) = drop_task q1 ++ drop_task q2 := by
  induction q1 with
  | nil => rfl
  | cons c rest ih => cases c <;> simp [drop_task, ih]

theorem startsOf_append {α : Type} (t1 t2 : List (DEvent α)) :
    startsOf (t1 ++ t2) = startsOf t1 ++ startsOf t2 := by
  induction t1 with
  | nil => rfl
  | cons e rest ih => cases e <;> simp [startsOf, ih]

theorem startsOf_drop_task {α : Type} (q : List (DCommand α)) :
    startsOf (drop_task q) = actionsOf q := by
  induction q with
  | nil => rfl
  | cons c rest ih => cases c <;> simp [drop_task, startsOf, actionsOf, ih]

theorem seqCheck_drop_task {α : Type} [DecidableEq α] (q : List (DCommand α)) :
    seqCheck (drop_task q) none = true := by
  induction q with
  | nil => rfl
  | cons c rest ih => cases c <;> simp [drop_task, seqCheck, ih]

theorem drop_task_barrier {α : Type} (q1 q2 : List (DCommand α)) (i : Nat) (a : α)
    (ha : DCommand.action a ∈ q1) :
    Precedes (drop_task (q1 ++ DCommand.sync i :: q2)) (DEvent.finish a) (DEvent.ack i) := by
  obtain ⟨s, t, hq⟩ := List.append_of_mem ha
  subst hq
  refine ⟨drop_task s ++ [DEvent.start a], drop_task t, drop_task q2, ?_⟩
  simp [drop_task_append, drop_task]

/-- Claim C2: actions enqueued on the Resource Ledger execute strictly
sequentially in FIFO submission order, each at most once (the executed action
sequence equals the submitted one), and a `flush` (`Sync` entry) is
acknowledged only after every action enqueued strictly before it has finished;
actions enqueued after the `Sync` carry no such guarantee. -/
theorem drop_list_fifo_flush {α : Type} [DecidableEq α]
    (q1 q2 : List (DCommand α)) (i : Nat) :
    drop_task (q1 ++ DCommand.sync i :: q2)
        = drop_task q1 ++ DEvent.ack i :: drop_task q2
      ∧ startsOf (drop_task (q1 ++ DCommand.sync i :: q2))
        = actionsOf (q1 ++ DCommand.sync i :: q2)
      ∧ seqCheck (drop_task (q1 ++ DCommand.sync i :: q2)) none = true
      ∧ ∀ a, DCommand.action a ∈ q1 →
          Precedes (drop_task (q1 ++ DCommand.sync i :: q2))
            (DEvent.finish a) (DEvent.ack i) := by
  refine ⟨?_, startsOf_drop_task _, seqCheck_drop_task _, fun a ha => drop_task_barrier q1 q2 i a ha⟩
  simp [drop_task_append, drop_task]

/-- Witness for C2 at a concrete queue: the action enqueued before the `Sync`
finishes before the acknowledgement, and the whole trace is sequential. -/
theorem drop_list_fifo_flush_witness :
    Precedes (drop_task ([DCommand.action 7] ++ DCommand.sync 1 :: [DCommand.action 8]))
        (DEvent.finish 7) (DEvent.ack 1)
      ∧ seqCheck (drop_task ([DCommand.action 7] ++ DCommand.sync 1 :: [DCommand.action 8]))
        none = true :=
  ⟨(drop_list_fifo_flush [DCommand.action 7] [DCommand.action 8] 1).2.2.2 7 (by simp),
   (drop_list_fifo_flush [DCommand.action 7] [DCommand.action 8] 1).2.2.1⟩

/-- Claim C8: `Session::with(work)` returns `Some` of the inner result when the
workload wins the race against the interrupt signal and `None` when the
interrupt wins, and in both cases every cleanup action pending in the Resource
Ledger finishes before the flush acknowledgement that precedes the return. -/
theorem session_with_spec {α β : Type} (outcome : RaceOutcome β) (pending : List α) :
    (session_with outcome pending).2
        = drop_task (pending.map DCommand.action) ++ [DEvent.ack 0]
      ∧ (∀ a ∈ pending,
          Precedes (session_with outcome pending).2 (DEvent.finish a) (DEvent.ack 0))
      ∧ (session_with outcome pending).1
        = match outcome with
          | RaceOutcome.completed b => some b
          | RaceOutcome.interrupted => none := by
  refine ⟨by simp [session_with, drop_task_append, drop_task], fun a ha => ?_, rfl⟩
  have : DCommand.action a ∈ pending.map (DCommand.action : α → DCommand α) :=
    List.mem_map_of_mem _ ha
  simpa [session_with] using
    drop_task_barrier (pending.map DCommand.action) [] 0 a this

/-- Witness for C8 at a concrete pending queue and race outcome. -/
theorem session_with_spec_witness :
    Precedes (session_with (RaceOutcome.completed (42 : Nat)) ([5] : List Nat)).2
        (DEvent.finish 5) (DEvent.ack 0)
      ∧ (session_with (RaceOutcome.completed (42 : Nat)) ([5] : List Nat)).1 = some 42 :=
  ⟨(session_with_spec (RaceOutcome.completed 42) [5]).2.1 5 (by simp),
   (session_with_spec (RaceOutcome.completed 42) [5]).2.2⟩

/-- Claim C4: an invoice whose agreement id is absent from `valid_agreements`
is rejected with reason "unsolicited service" and zero accepted amount,
leaving the state unchanged; an invoice whose agreement id is present is
accepted with exactly its amount, the id is removed (one-shot) and
`amount_paid` grows by exactly the invoice amount. -/
theorem payment_invoice_policy (st : PMState) (invoice : Invoice) :
    (invoice.agreement_id ∉ st.valid_agreements →
        process_invoice st invoice
          = (st, InvoiceAction.reject invoice.invoice_id
              RejectionReason.unsolicitedService 0))
      ∧ (invoice.agreement_id ∈ st.valid_agreements →
          (process_invoice st invoice).2
              = InvoiceAction.accept invoice.invoice_id invoice.amount st.allocation_id
            ∧ (process_invoice st invoice).1.valid_agreements
              = st.valid_agreements.erase invoice.agreement_id
            ∧ invoice.agreement_id ∉ (process_invoice st invoice).1.valid_agreements
            ∧ (process_invoice st invoice).1.amount_paid
              = st.amount_paid + invoice.amount) := by
  constructor
  · intro h
    simp [process_invoice, h]
  · intro h
    simp [process_invoice, h, Finset.mem_erase]

/-- Witness for C4: one unauthorized invoice is rejected with zero accepted,
one authorized invoice is accepted with exactly its amount. -/
theorem payment_invoice_policy_witness :
    process_invoice pmStateW invoiceBadW
        = (pmStateW, InvoiceAction.reject "inv-2" RejectionReason.unsolicitedService 0)
      ∧ (process_invoice pmStateW invoiceGoodW).2
        = InvoiceAction.accept "inv-1" 5 "alloc-1" :=
  ⟨(payment_invoice_policy pmStateW invoiceBadW).1 (by decide),
   ((payment_invoice_policy pmStateW invoiceGoodW).2 (by decide)).1⟩

/-- Claim C5: the `negotiated_proposals` pump answers every initial proposal
(no previous id) with exactly one counter-proposal carrying the original
demand properties and constraints, and forwards every response proposal
(previous id present) as a candidate without ever countering it. -/
theorem negotiated_proposals_policy {J : Type} (demand : NewDemand J)
    (ps : List (ProposalData J)) :
    countersOf (negotiated_proposals_run demand ps)
        = (ps.filter fun p => !is_response p).map
            (fun p => (p.proposal_id, demand.properties, demand.constraints))
      ∧ forwardsOf (negotiated_proposals_run demand ps)
        = ps.filter fun p => is_response p := by
  induction ps with
  | nil => exact ⟨rfl, rfl⟩
  | cons p rest ih =>
    by_cases h : is_response p = true
    · simpa [negotiated_proposals_run, negotiated_proposals_step, h,
        List.filter_cons, countersOf, forwardsOf] using ih
    · simp only [Bool.not_eq_true] at h
      simpa [negotiated_proposals_run, negotiated_proposals_step, h,
        List.filter_cons, countersOf, forwardsOf] using ih

/-- Claim C9 (code divergence): an `Agreement` built by
`Proposal::create_agreement` carries `CancelableDropList::new()` (no ledger
handle), so dropping its last handle registers no terminate-agreement cleanup
action — the ledger is left exactly as it was. -/
theorem create_agreement_registers_no_cleanup (agreement_id : String)
    (ledger : List CleanupAction) :
    AgreementInner.drop (create_agreement agreement_id) ledger = ledger := rfl

/-- Claim C10: `negotiate_agreements` returns only with exactly
`num_agreements` agreements; when the proposal channel can no longer deliver
enough successful negotiations, the loop never returns (for every iteration
budget it is still running). -/
theorem negotiate_agreements_spec {A : Type} :
    (∀ (num : Nat) (queue : List (NegotiationResult A)) (fuel : Nat) (res : List A),
        negotiate_agreements_loop num queue [] fuel = some res → res.length = num)
      ∧ (∀ (num : Nat) (queue : List (NegotiationResult A)),
          countSuccess queue < num →
          ∀ fuel, negotiate_agreements_loop num queue [] fuel = none) := by
  have hlen : ∀ (num fuel : Nat) (queue : List (NegotiationResult A)) (acc res : List A),
      acc.length ≤ num → negotiate_agreements_loop num queue acc fuel = some res →
      res.length = num := by
    intro num fuel
    induction fuel with
    | zero =>
      intro queue acc res hacc h
      by_cases hlt : acc.length < num
      · simp [negotiate_agreements_loop, hlt] at h
      · simp [negotiate_agreements_loop, hlt] at h
        subst h
        omega
    | succ fuel ih =>
      intro queue acc res hacc h
      by_cases hlt : acc.length < num
      · match queue with
        | [] =>
          simp only [negotiate_agreements_loop, if_pos hlt] at h
          exact ih [] acc res hacc h
        | NegotiationResult.success a :: rest =>
          simp only [negotiate_agreements_loop, if_pos hlt] at h
          refine ih rest (acc ++ [a]) res ?_ h
          simp only [List.length_append, List.length_cons, List.length_nil]
          omega
        | NegotiationResult.failure :: rest =>
          simp only [negotiate_agreements_loop, if_pos hlt] at h
          exact ih rest acc res hacc h
      · match queue with
        | [] =>
          simp [negotiate_agreements_loop, hlt] at h
          subst h
          omega
        | _ :: _ =>
          simp [negotiate_agreements_loop, hlt] at h
          subst h
          omega
  have hdiv : ∀ (num fuel : Nat) (queue : List (NegotiationResult A)) (acc : List A),
      acc.length + countSuccess queue < num →
      negotiate_agreements_loop num queue acc fuel = none := by
    intro num fuel
    induction fuel with
    | zero =>
      intro queue acc hlt
      have : acc.length < num := by omega
      simp [negotiate_agreements_loop, this]
    | succ fuel ih =>
      intro queue acc hlt
      have hl : acc.length < num := by omega
      match queue with
      | [] =>
        simp only [negotiate_agreements_loop, if_pos hl]
        exact ih [] acc (by simpa using hlt)
      | NegotiationResult.success a :: rest =>
        simp only [negotiate_agreements_loop, if_pos hl]
        refine ih rest (acc ++ [a]) ?_
        simp only [countSuccess] at hlt
        simp
        omega
      | NegotiationResult.failure :: rest =>
        simp only [negotiate_agreements_loop, if_pos hl]
        refine ih rest acc ?_
        simpa [countSuccess] using hlt
  exact ⟨fun num queue fuel res h => hlen num fuel queue [] res (by simp) h,
    fun num queue h fuel => hdiv num fuel queue [] (by simpa using h)⟩

/-- Witness for C10: a run that returns has exactly `num_agreements` results,
and a channel closed after one failed negotiation never lets the loop return. -/
theorem negotiate_agreements_spec_witness :
    ([0] : List Nat).length = 1
      ∧ negotiate_agreements_loop 1 ([NegotiationResult.failure] : List (NegotiationResult Nat)) [] 3 = none :=
  ⟨(@negotiate_agreements_spec Nat).1 1 [NegotiationResult.success 0] 5 [0] (by rfl),
   (@negotiate_agreements_spec Nat).2 1 [NegotiationResult.failure] (by decide) 3⟩

/-- Claim C6: for `exec([Deploy, Start, Run])` with server polls `[0, 1]` then
`[1, 2 (batch finished)]`, the delivered events are exactly
`StepSuccess(Deploy)`, `StepSuccess(Start)`, `StepSuccess(Run)` — the
re-delivered index 1 is filtered — and the stream issues exactly two polls,
regardless of any further responses the server could still serve. -/
theorem exec_scenario_events (extra : List (List ExeScriptCommandResult)) :
    generate_events
        [ExeScriptCommand.deploy, ExeScriptCommand.start [], ExeScriptCommand.run "main" []]
        ([[{ index := 0, result := CommandResult.ok, is_batch_finished := false, message := none },
           { index := 1, result := CommandResult.ok, is_batch_finished := false, message := none }],
          [{ index := 1, result := CommandResult.ok, is_batch_finished := false, message := none },
           { index := 2, result := CommandResult.ok, is_batch_finished := true, message := none }]]
         ++ extra)
      = ([Except.ok (BEvent.stepSuccess ExeScriptCommand.deploy ""),
          Except.ok (BEvent.stepSuccess (ExeScriptCommand.start []) ""),
          Except.ok (BEvent.stepSuccess (ExeScriptCommand.run "main" []) "")], 2) := by
  simp [generate_events, generate_events_go, pollEvents, nextCommandIndex, indexAtLeast,
    List.filter_cons, List.max?]

theorem strictlyIncreasing_iff_chain (l : List Nat) :
    strictlyIncreasing l = true ↔ List.Chain' (· < ·) l := by
  match l with
  | [] => simp [strictlyIncreasing]
  | [_] => simp [strictlyIncreasing]
  | a :: b :: rest =>
    rw [List.chain'_cons, ← strictlyIncreasing_iff_chain (b :: rest)]
    simp [strictlyIncreasing]

theorem delivered_indices_go_spec (polls : List (List ExeScriptCommandResult)) :
    ∀ (ci : Option Nat) (finish : Bool), serverConforms ci polls = true →
      List.Chain' (· < ·) (delivered_indices_go ci finish polls)
        ∧ ∀ x ∈ delivered_indices_go ci finish polls, indexAtLeast x ci = true := by
  induction polls with
  | nil =>
    intro ci finish _
    cases finish <;> simp [delivered_indices_go]
  | cons r rest ih =>
    intro ci finish h
    simp only [serverConforms, Bool.and_eq_true, List.all_eq_true,
      strictlyIncreasing_iff_chain] at h
    obtain ⟨⟨hall, hchain⟩, hrest⟩ := h
    cases finish with
    | true => simp [delivered_indices_go]
    | false =>
      have hfilter : (r.filter fun s => indexAtLeast s.index ci) = r :=
        List.filter_eq_self.mpr hall
      obtain ⟨ihchain, ihge⟩ :=
        ih (nextCommandIndex r ci) (r.any fun s => s.is_batch_finished) hrest
      have hprefix_tail : ∀ x ∈ r.map (fun s => s.index),
          ∀ y ∈ delivered_indices_go (nextCommandIndex r ci)
            (r.any fun s => s.is_batch_finished) rest, x < y := by
        intro x hx y hy
        obtain ⟨s, hs, hxs⟩ := List.mem_map.mp hx
        have hmapne : (r.map fun s => s.index + 1) ≠ [] := by
          intro hnil
          rw [List.map_eq_nil_iff] at hnil
          subst hnil
          simp at hs
        obtain ⟨mx, hmx⟩ :=
          Option.ne_none_iff_exists'.mp (fun hn => hmapne (List.max?_eq_none_iff.mp hn))
        obtain ⟨_, hmax⟩ := List.max?_eq_some_iff'.mp hmx
        have hxm : s.index + 1 ≤ mx := hmax _ (List.mem_map.mpr ⟨s, hs, rfl⟩)
        have hci' : nextCommandIndex r ci = some mx := by
          unfold nextCommandIndex
          rw [hmx]
          rfl
        have hy' := ihge y hy
        rw [hci'] at hy'
        simp only [indexAtLeast, decide_eq_true_eq] at hy'
        omega
      constructor
      · simp only [delivered_indices_go, hfilter]
        rw [List.chain'_append]
        refine ⟨hchain, ihchain, ?_⟩
        intro x hx y hy
        exact hprefix_tail x (List.mem_of_getLast?_eq_some hx) y (List.mem_of_mem_head? hy)
      · simp only [delivered_indices_go, hfilter, List.mem_append]
        rintro x (hx | hx)
        · obtain ⟨s, hs, hxs⟩ := List.mem_map.mp hx
          subst hxs
          exact hall s hs
        · have hx' := ihge x hx
          cases hci : ci with
          | none => rfl
          | some c =>
            cases r with
            | nil =>
              rw [show nextCommandIndex [] ci = ci by simp [nextCommandIndex], hci] at hx'
              exact hx'
            | cons s0 r' =>
              obtain ⟨mx, hmx⟩ :=
                Option.ne_none_iff_exists'.mp
                  (fun hn => by
                    have := List.max?_eq_none_iff.mp
                      (hn : ((s0 :: r').map fun s => s.index + 1).max? = none)
                    simp at this)
              obtain ⟨hmem, _⟩ := List.max?_eq_some_iff'.mp hmx
              obtain ⟨s, hs, hsmx⟩ := List.mem_map.mp hmem
              have hsc := hall s hs
              rw [hci] at hsc
              simp only [indexAtLeast, decide_eq_true_eq] at hsc
              have hci' : nextCommandIndex (s0 :: r') ci = some mx := by
                unfold nextCommandIndex
                rw [hmx]
                rfl
              rw [hci'] at hx'
              simp only [indexAtLeast, decide_eq_true_eq] at hx'
              simp only [indexAtLeast, decide_eq_true_eq]
              omega

/-- Claim C1 counterexample: a single poll that lists index 0 twice passes the
low-water-mark filter twice, so two events are delivered for the same index
and the delivered index sequence `[0, 0]` is not strictly increasing. -/
theorem generate_events_duplicate_counterexample :
    delivered_indices
        [[{ index := 0, result := CommandResult.ok, is_batch_finished := false, message := none },
          { index := 0, result := CommandResult.ok, is_batch_finished := false, message := none }]]
      = [0, 0]
      ∧ ¬ List.Chain' (· < ·)
          (delivered_indices
            [[{ index := 0, result := CommandResult.ok, is_batch_finished := false,
                message := none },
              { index := 0, result := CommandResult.ok, is_batch_finished := false,
                message := none }]])
      ∧ (generate_events [ExeScriptCommand.deploy]
          [[{ index := 0, result := CommandResult.ok, is_batch_finished := false,
              message := none },
            { index := 0, result := CommandResult.ok, is_batch_finished := false,
              message := none }]]).1
        = [Except.ok (BEvent.stepSuccess ExeScriptCommand.deploy ""),
           Except.ok (BEvent.stepSuccess ExeScriptCommand.deploy "")] := by
  refine ⟨rfl, ?_, rfl⟩
  intro hchain
  rw [show delivered_indices
      [[{ index := 0, result := CommandResult.ok, is_batch_finished := false, message := none },
        { index := 0, result := CommandResult.ok, is_batch_finished := false,
          message := none }]] = [0, 0] from rfl] at hchain
  simp [List.chain'_cons] at hchain

/-- Claim C1 (amended): provided the server answers each poll consistently with
the request — every returned index is at least the requested lower bound (the
current low-water-mark) and each poll lists indices in strictly increasing
order — the delivered result indices are strictly increasing with no
duplicates, whatever the chunking across polls; any result below the
low-water-mark is filtered and produces no event. -/
theorem generate_events_indices_increasing (polls : List (List ExeScriptCommandResult))
    (h : serverConforms none polls = true) :
    List.Chain' (· < ·) (delivered_indices polls)
      ∧ (delivered_indices polls).Nodup := by
  have hchain := (delivered_indices_go_spec polls none false h).1
  refine ⟨hchain, ?_⟩
  exact (List.chain'_iff_pairwise.mp hchain).imp Nat.ne_of_lt

/-- Witness for the amended C1 at a concrete conformant poll sequence. -/
theorem generate_events_indices_increasing_witness :
    serverConforms none
        [[{ index := 0, result := CommandResult.ok, is_batch_finished := false, message := none },
          { index := 1, result := CommandResult.ok, is_batch_finished := false, message := none }],
         [{ index := 2, result := CommandResult.ok, is_batch_finished := true, message := none }]]
      = true
      ∧ List.Chain' (· < ·)
        (delivered_indices
          [[{ index := 0, result := CommandResult.ok, is_batch_finished := false,
              message := none },
            { index := 1, result := CommandResult.ok, is_batch_finished := false,
              message := none }],
           [{ index := 2, result := CommandResult.ok, is_batch_finished := true,
              message := none }]]) :=
  ⟨by decide,
   (generate_events_indices_increasing
     [[{ index := 0, result := CommandResult.ok, is_batch_finished := false, message := none },
       { index := 1, result := CommandResult.ok, is_batch_finished := false, message := none }],
      [{ index := 2, result := CommandResult.ok, is_batch_finished := true, message := none }]]
     (by decide)).1⟩

/-- Claim C7 counterexample: with 3 tasks (target) and 5 pooled candidates at
elapsed 6 s, the code transitions to `AnswerBestProposals`
(`13 * 3 / 10 + 2 = 5` by integer division), while the claimed real-valued
threshold `1.3 × 3 + 2 = 5.9` is not met, so the claimed "exactly when"
condition is false on the code. -/
theorem selection_threshold_counterexample :
    (selection_step 3 6 AgreementSearchState.waitForInitialProposals
        ([0, 1, 2, 3, 4] : List Nat)).1
      = AgreementSearchState.answerBestProposals
      ∧ ¬ spec_enough_proposals 6 5 3 := by
  constructor
  · decide
  · intro h
    rcases h with ⟨-, h⟩ | ⟨h, -⟩
    · norm_num at h
    · norm_num at h

/-- Claim C7 (amended): the loop transitions from collecting to selecting
exactly when (elapsed > 5 s and the candidate count is at least
`⌊1.3 × target⌋ + 2`, the integer-division value the code computes) or
(elapsed > 30 s and the candidate count is at least the target); on the
transition it spawns an independent negotiation for each of the first
`target` pooled candidates and resets the pool, otherwise it spawns nothing
and keeps the pool. -/
theorem selection_step_amended {P : Type} (providers_num : Nat) (elapsed : ℚ)
    (st : AgreementSearchState) (proposals : List P) :
    selection_step providers_num elapsed st proposals
      = if (5 < elapsed ∧ ⌊(13 * providers_num : ℚ) / 10⌋₊ + 2 ≤ proposals.length)
            ∨ (30 < elapsed ∧ providers_num ≤ proposals.length)
        then (AgreementSearchState.answerBestProposals, proposals.take providers_num, [])
        else (st, [], proposals) := by
  have hfloor : ⌊(13 * providers_num : ℚ) / 10⌋₊ = 13 * providers_num / 10 := by
    rw [show ((13 * providers_num : ℚ)) = ((13 * providers_num : Nat) : ℚ) by push_cast; ring,
      show ((10 : ℚ)) = ((10 : Nat) : ℚ) by norm_num,
      Nat.floor_div_nat, Nat.floor_natCast]
  have hcond : check_enough_proposals elapsed proposals.length providers_num = true
      ↔ ((5 < elapsed ∧ ⌊(13 * providers_num : ℚ) / 10⌋₊ + 2 ≤ proposals.length)
          ∨ (30 < elapsed ∧ providers_num ≤ proposals.length)) := by
    rw [hfloor]
    simp [check_enough_proposals]
  by_cases h : (5 < elapsed ∧ ⌊(13 * providers_num : ℚ) / 10⌋₊ + 2 ≤ proposals.length)
      ∨ (30 < elapsed ∧ providers_num ≤ proposals.length)
  · rw [if_pos h]
    unfold selection_step
    rw [if_pos (hcond.mpr h)]
  · rw [if_neg h]
    unfold selection_step
    rw [if_neg (fun hb => h (hcond.mp hb))]

/-! ### Helper lemmas for the framing codec -/

theorem position_eq_none_spec {p : Nat → Bool} :
    ∀ l : List Nat, position p l = none → ∀ x ∈ l, p x = false := by
  intro l
  induction l with
  | nil => intro _ x hx; cases hx
  | cons b rest ih =>
    intro h x hx
    by_cases hb : p b = true
    · simp [position, hb] at h
    · simp only [position, Bool.not_eq_true] at hb
      simp only [position, hb, Bool.false_eq_true, if_false, Option.map_eq_none'] at h
      rcases List.mem_cons.mp hx with rfl | hx'
      · exact hb
      · exact ih h x hx'

theorem position_eq_some_spec {p : Nat → Bool} :
    ∀ (l : List Nat) (idx : Nat), position p l = some idx →
      ∃ a, l = l.take idx ++ a :: l.drop (idx + 1) ∧ p a = true
        ∧ ∀ x ∈ l.take idx, p x = false := by
  intro l
  induction l with
  | nil => intro idx h; cases h
  | cons b rest ih =>
    intro idx h
    by_cases hb : p b = true
    · simp only [position, hb, if_true, Option.some.injEq] at h
      subst h
      exact ⟨b, by simp, hb, by simp⟩
    · simp only [position, Bool.not_eq_true] at hb
      simp only [position, hb, Bool.false_eq_true, if_false, Option.map_eq_some'] at h
      obtain ⟨j, hj, rfl⟩ := h
      obtain ⟨a, hdecomp, hpa, hbefore⟩ := ih j hj
      refine ⟨a, ?_, hpa, ?_⟩
      · calc b :: rest = b :: (rest.take j ++ a :: rest.drop (j + 1)) := by rw [← hdecomp]
          _ = (b :: rest).take (j + 1) ++ a :: (b :: rest).drop (j + 1 + 1) := by
            simp [List.take_succ_cons, List.drop_succ_cons]
      · intro x hx
        simp only [List.take_succ_cons, List.mem_cons] at hx
        rcases hx with rfl | hx'
        · exact hb
        · exact hbefore x hx'

theorem procBytes_inside_no_end {μ : Type} (deser : List Nat → Option μ) :
    ∀ (bs : List Nat) (buffer leftovers : List Nat) (msgs : List μ),
      (∀ x ∈ bs, (x == 3) = false) → buffer ≠ [] →
      procBytes deser (buffer, leftovers, msgs) bs = (buffer ++ bs, leftovers, msgs) := by
  intro bs
  induction bs with
  | nil => intro buffer leftovers msgs _ _; simp [procBytes]
  | cons b rest ih =>
    intro buffer leftovers msgs hno hne
    have hb : (b == 3) = false := hno b (List.mem_cons_self b rest)
    have hlen : 0 < buffer.length := List.length_pos.mpr hne
    have hstep : procByte deser (buffer, leftovers, msgs) b
        = (buffer ++ [b], leftovers, msgs) := by
      simp [procByte, hlen, hb]
    calc procBytes deser (buffer, leftovers, msgs) (b :: rest)
        = procBytes deser (buffer ++ [b], leftovers, msgs) rest := by
          simp [procBytes, List.foldl_cons, hstep]
      _ = ((buffer ++ [b]) ++ rest, leftovers, msgs) :=
          ih (buffer ++ [b]) leftovers msgs (fun x hx => hno x (List.mem_cons_of_mem b hx))
            (by simp)
      _ = (buffer ++ b :: rest, leftovers, msgs) := by simp

theorem procBytes_outside_no_start {μ : Type} (deser : List Nat → Option μ) :
    ∀ (bs : List Nat) (leftovers : List Nat) (msgs : List μ),
      (∀ x ∈ bs, (x == 2) = false) →
      procBytes deser ([], leftovers, msgs) bs = ([], leftovers ++ bs, msgs) := by
  intro bs
  induction bs with
  | nil => intro leftovers msgs _; simp [procBytes]
  | cons b rest ih =>
    intro leftovers msgs hno
    have hb : (b == 2) = false := hno b (List.mem_cons_self b rest)
    have hstep : procByte deser (([] : List Nat), leftovers, msgs) b
        = ([], leftovers ++ [b], msgs) := by
      simp [procByte, hb]
    calc procBytes deser (([] : List Nat), leftovers, msgs) (b :: rest)
        = procBytes deser (([] : List Nat), leftovers ++ [b], msgs) rest := by
          simp [procBytes, List.foldl_cons, hstep]
      _ = ([], (leftovers ++ [b]) ++ rest, msgs) :=
          ih (leftovers ++ [b]) msgs (fun x hx => hno x (List.mem_cons_of_mem b hx))
      _ = ([], leftovers ++ b :: rest, msgs) := by simp

theorem procBytes_append {μ : Type} (deser : List Nat → Option μ)
    (st : List Nat × List Nat × List μ) (l1 l2 : List Nat) :
    procBytes deser st (l1 ++ l2) = procBytes deser (procBytes deser st l1) l2 := by
  simp [procBytes, List.foldl_append]

theorem procByte_shift {μ : Type} (deser : List Nat → Option μ)
    (bf l : List Nat) (m : List μ) (x : Nat) :
    procByte deser (bf, l, m) x
      = ((procByte deser (bf, [], []) x).1,
         l ++ (procByte deser (bf, [], []) x).2.1,
         m ++ (procByte deser (bf, [], []) x).2.2) := by
  by_cases hb : 0 < bf.length
  · by_cases hx : (x == 3) = true
    · cases hdes : deser bf <;> simp [procByte, hb, hx, hdes]
    · simp [procByte, hb, hx]
  · by_cases hx : (x == 2) = true
    · simp [procByte, hb, hx]
    · simp [procByte, hb, hx]

theorem procBytes_shift {μ : Type} (deser : List Nat → Option μ) :
    ∀ (bs bf l : List Nat) (m : List μ),
      procBytes deser (bf, l, m) bs
        = ((procBytes deser (bf, [], []) bs).1,
           l ++ (procBytes deser (bf, [], []) bs).2.1,
           m ++ (procBytes deser (bf, [], []) bs).2.2) := by
  intro bs
  induction bs with
  | nil => intro bf l m; simp [procBytes]
  | cons b rest ih =>
    intro bf l m
    have hcons : ∀ (st : List Nat × List Nat × List μ),
        procBytes deser st (b :: rest) = procBytes deser (procByte deser st b) rest :=
      fun _ => rfl
    rw [hcons, hcons, procByte_shift]
    obtain ⟨r1, r2, r3⟩ := procByte deser (bf, [], []) b
    rw [ih r1 (l ++ r2) (m ++ r3), ih r1 r2 r3]
    simp

theorem consume_go_eq_procBytes {μ : Type} (deser : List Nat → Option μ) :
    ∀ (buffer output leftovers : List Nat) (msgs : List μ),
      consume_go deser buffer output leftovers msgs
        = procBytes deser (buffer, leftovers, msgs) output := by
  intro buffer output leftovers msgs
  induction buffer, output, leftovers, msgs using consume_go.induct deser with
  | case1 buffer leftovers msgs =>
    simp [consume_go, procBytes]
  | case2 buffer b rest leftovers msgs output hlen idx hpos buffer2 msgs2 ih =>
    obtain ⟨a, hdecomp, hpa, hbefore⟩ := position_eq_some_spec (b :: rest) idx hpos
    have ha : a = 3 := by simpa using hpa
    subst ha
    have hne : buffer ≠ [] := by
      intro h
      subst h
      simp at hlen
    rw [consume_go]
    simp only [hlen, if_true, hpos]
    rw [ih]
    conv_rhs => rw [hdecomp]
    rw [procBytes_append, procBytes_inside_no_end deser _ buffer leftovers msgs hbefore hne]
    have hbne : buffer ++ (b :: rest).take idx ≠ [] := by
      intro h
      exact hne (List.append_eq_nil.mp h).1
    have hpos' : 0 < (buffer ++ (b :: rest).take idx).length := List.length_pos.mpr hbne
    have hstep : procByte deser (buffer ++ (b :: rest).take idx, leftovers, msgs) 3
        = ([], leftovers,
           match deser (buffer ++ (b :: rest).take idx) with
           | some m => msgs ++ [m]
           | none => msgs) := by
      simp only [procByte]
      rw [if_pos hpos']
      simp
    show _ = procBytes deser
        (procByte deser (buffer ++ (b :: rest).take idx, leftovers, msgs) 3)
        ((b :: rest).drop (idx + 1))
    rw [hstep]
  | case3 buffer b rest leftovers msgs output hlen hpos ih =>
    have hall := position_eq_none_spec (b :: rest) hpos
    have hne : buffer ≠ [] := by
      intro h
      subst h
      simp at hlen
    rw [consume_go]
    simp only [hlen, if_true, hpos]
    rw [ih]
    rw [procBytes_inside_no_end deser _ buffer leftovers msgs hall hne]
    simp [procBytes]
  | case4 buffer b rest leftovers msgs output hlen idx hpos ih =>
    obtain ⟨a, hdecomp, hpa, hbefore⟩ := position_eq_some_spec (b :: rest) idx hpos
    have ha : a = 2 := by simpa using hpa
    subst ha
    have hbuf : buffer = [] := by
      cases buffer with
      | nil => rfl
      | cons x xs => exact absurd (by simp) hlen
    subst hbuf
    rw [consume_go]
    simp only [hlen, if_false, hpos]
    rw [ih]
    conv_rhs => rw [hdecomp]
    rw [procBytes_append, procBytes_outside_no_start deser _ leftovers msgs hbefore]
    have hstep : procByte deser (([] : List Nat), leftovers ++ (b :: rest).take idx, msgs) 2
        = ([32], leftovers ++ (b :: rest).take idx, msgs) := by
      simp [procByte]
    show _ = procBytes deser
        (procByte deser (([] : List Nat), leftovers ++ (b :: rest).take idx, msgs) 2)
        ((b :: rest).drop (idx + 1))
    rw [hstep]
    rfl
  | case5 buffer b rest leftovers msgs output hlen hpos ih =>
    have hall := position_eq_none_spec (b :: rest) hpos
    have hbuf : buffer = [] := by
      cases buffer with
      | nil => rfl
      | cons x xs => exact absurd (by simp) hlen
    subst hbuf
    rw [consume_go]
    simp only [hlen, if_false, hpos]
    rw [ih]
    rw [procBytes_outside_no_start deser _ leftovers msgs hall]
    simp [procBytes]

theorem feedChunks_eq_procBytes {μ : Type} (deser : List Nat → Option μ) :
    ∀ (chunks : List (List Nat)) (buffer : List Nat),
      feedChunks deser buffer chunks = procBytes deser (buffer, [], []) chunks.flatten := by
  intro chunks
  induction chunks with
  | nil => intro buffer; simp [feedChunks, procBytes]
  | cons c rest ih =>
    intro buffer
    have hc : consume_message deser buffer c = procBytes deser (buffer, [], []) c :=
      consume_go_eq_procBytes deser buffer c [] []
    rcases hp : procBytes deser (buffer, [], []) c with ⟨b1, l1, m1⟩
    simp only [feedChunks, hc, hp, ih]
    rw [List.flatten_cons, procBytes_append, hp, procBytes_shift deser rest.flatten b1 l1 m1]

/-- Claim C3: framing-codec round trip.  For any message whose serialization
is marker-free and decodes back (with the space byte the codec prepends), and
any marker-free surrounding text, feeding
`pre ++ encode_message(M) ++ suf` through `consume_message` under any split
into delivery chunks — codec state carried across chunks — yields exactly one
decoded message, equal to `M`, and retained output `pre ++ suf`, with an empty
final buffer. -/
theorem capture_messages_round_trip {μ : Type} (deser : List Nat → Option μ)
    (serialize : μ → List Nat) (M : μ) (pre suf : List Nat) (chunks : List (List Nat))
    (_hser2 : 2 ∉ serialize M) (hser3 : 3 ∉ serialize M)
    (hpre2 : 2 ∉ pre) (hsuf2 : 2 ∉ suf)
    (hdec : deser (32 :: serialize M) = some M)
    (hflat : chunks.flatten = pre ++ encode_message serialize M ++ suf) :
    feedChunks deser [] chunks = ([], pre ++ suf, [M]) := by
  have hno2pre : ∀ x ∈ pre, (x == 2) = false := fun x hx => by
    simp only [beq_eq_false_iff_ne, ne_eq]
    intro hx2
    exact hpre2 (hx2 ▸ hx)
  have hno2suf : ∀ x ∈ suf, (x == 2) = false := fun x hx => by
    simp only [beq_eq_false_iff_ne, ne_eq]
    intro hx2
    exact hsuf2 (hx2 ▸ hx)
  have hno3ser : ∀ x ∈ serialize M, (x == 3) = false := fun x hx => by
    simp only [beq_eq_false_iff_ne, ne_eq]
    intro hx3
    exact hser3 (hx3 ▸ hx)
  rw [feedChunks_eq_procBytes, hflat]
  rw [show pre ++ encode_message serialize M ++ suf
      = pre ++ ([2] ++ (serialize M ++ ([3] ++ suf))) by simp [encode_message]]
  rw [procBytes_append, procBytes_outside_no_start deser pre [] [] hno2pre]
  rw [procBytes_append]
  have hstart : procBytes deser (([] : List Nat), [] ++ pre, ([] : List μ)) [2]
      = ([32], pre, []) := by
    simp [procBytes, procByte]
  rw [hstart, procBytes_append]
  rw [procBytes_inside_no_end deser (serialize M) [32] pre [] hno3ser (by simp)]
  rw [procBytes_append]
  have hend : procBytes deser (([32] ++ serialize M : List Nat), pre, ([] : List μ)) [3]
      = ([], pre, [M]) := by
    have h32 : ([32] ++ serialize M : List Nat) = 32 :: serialize M := rfl
    simp [procBytes, procByte, h32, hdec]
  rw [hend]
  rw [procBytes_outside_no_start deser suf pre [M] hno2suf]

/-- Witness for C3: a three-chunk delivery of text, frame and trailing text,
split inside the frame, decodes to exactly one message with the surrounding
text retained. -/
theorem capture_messages_round_trip_witness :
    feedChunks deserW [] [[9], [2, 53], [3, 8]] = ([], [9, 8], [7]) :=
  capture_messages_round_trip deserW (fun _ => [53]) 7 [9] [8] [[9], [2, 53], [3, 8]]
    (by decide) (by decide) (by decide) (by decide) (by decide) (by decide)

end Yarapi
